import Mathlib

/-!
Verification development for the `python-chebai` repository.

This file gives a shallow embedding, in Lean 4, of the parts of the
repository that the specification talks about:

* the dataset pipeline `XYBaseDataModule` of
  `chebai/preprocessing/datasets/base.py` (label filtering, balancing,
  shuffling, data-limit truncation, and the constructor assertion);
* the ragged collater `RaggedCollater` of `chebai/preprocessing/collate.py`;
* the training-step plumbing `JCIBaseNet` of `chebai/models/base.py`;
* the ELECTRA pre-training corruption `ElectraPre._get_data_and_labels`
  of `chebai/models/electra.py`;
* the CYK-style encoder `ChemYK` of `chem/models/chemyk.py`, the LSTM
  encoder `chem/models/lstm.py`, and output-shape semantics of the three
  models' `forward` methods.

External library primitives (torch tensor operations, the random number
generator, the metric objects of pytorch-lightning) are modelled
explicitly: randomness becomes oracle parameters, `torch.softmax` is
modelled with an arbitrary positive weighting function in place of `exp`
(every property proved or refuted here holds for every such function,
`exp` included), and float arithmetic is carried out over `ℚ` or over
abstract value types, since only the data flow, never the rounding, is at
issue in the claims.
-/

namespace ChebAI

/-! ## Dataset pipeline: `chebai/preprocessing/datasets/base.py`

A stored dataset is a list of rows; each row is a dict with a `features`
entry and a `labels` entry (a list of labels, tested for truthiness by
the pipeline).  We keep `features` and the label type abstract and take
the Python truthiness test as a Boolean-valued parameter. -/

structure Row (σ L : Type) where
  features : σ
  labels : List L
  deriving Repr, DecidableEq

variable {σ L : Type}

/-- Embedding of `XYBaseDataModule._filter_labels` (base.py:69-71):
`row["labels"] = [row["labels"][self.label_filter]]`.  Python indexing
raises on an out-of-range index, so results about this definition are
stated under an in-bounds hypothesis. -/
def filterLabels [Inhabited L] (k : ℕ) (r : Row σ L) : Row σ L :=
  { r with labels := [r.labels.getD k default] }

/-- Truthiness of `r["labels"][0]` as tested in base.py:83-84; after
`_filter_labels` the labels list always has exactly one element, so the
head is total there (Python would raise on an empty list). -/
def truthyHead (truthy : L → Bool) (r : Row σ L) : Bool :=
  match r.labels with
  | [] => false
  | a :: _ => truthy a

/-- Python `int()` applied to a real number: truncation toward zero. -/
def pyInt (q : ℚ) : ℤ :=
  if 0 ≤ q then ⌊q⌋ else ⌈q⌉

/-- Python slice `l[:n]` for an arbitrary integer bound `n` (a negative
bound counts from the end of the list). -/
def pySliceTo (l : List (Row σ L)) (n : ℤ) : List (Row σ L) :=
  if 0 ≤ n then l.take n.toNat else l.take (l.length - (-n).toNat)

/-- `dataset = [self._filter_labels(r) for r in dataset]` (base.py:82). -/
def filteredRows [Inhabited L] (k : ℕ) (dataset : List (Row σ L)) : List (Row σ L) :=
  dataset.map (filterLabels k)

/-- `positives = [r for r in dataset if r["labels"][0]]` (base.py:83). -/
def positiveRows [Inhabited L] (truthy : L → Bool) (k : ℕ)
    (dataset : List (Row σ L)) : List (Row σ L) :=
  (filteredRows k dataset).filter (fun r => truthyHead truthy r)

/-- `negatives = [r for r in dataset if not r["labels"][0]]` (base.py:84). -/
def negativeRows [Inhabited L] (truthy : L → Bool) (k : ℕ)
    (dataset : List (Row σ L)) : List (Row σ L) :=
  (filteredRows k dataset).filter (fun r => !truthyHead truthy r)

/-- `negative_length = min(original_len, int(len(positives) *
self.balance_after_filter))` (base.py:86-88), where `original_len` is
the length of the loaded dataset before filtering. -/
def negativeLength [Inhabited L] (truthy : L → Bool) (k : ℕ) (q : ℚ)
    (dataset : List (Row σ L)) : ℤ :=
  min (dataset.length : ℤ) (pyInt (((positiveRows truthy k dataset).length : ℚ) * q))

/-- The dataset rebuilt after filtering (base.py:85-91):
`positives + negatives[:negative_length]` when `balance_after_filter`
is set, `positives + negatives` otherwise. -/
def balancedRows [Inhabited L] (truthy : L → Bool) (k : ℕ)
    (balanceAfterFilter : Option ℚ) (dataset : List (Row σ L)) : List (Row σ L) :=
  match balanceAfterFilter with
  | some q =>
    positiveRows truthy k dataset ++
      pySliceTo (negativeRows truthy k dataset) (negativeLength truthy k q dataset)
  | none => positiveRows truthy k dataset ++ negativeRows truthy k dataset

/-- Embedding of the body of `XYBaseDataModule.dataloader`
(base.py:80-92) up to, but not including, the `data_limit` truncation:
when `label_filter` is set, filter, balance and `random.shuffle` the
rows; when `label_filter` is `None` the dataset is left untouched.
`random.shuffle` is modelled by an explicit `shuffle` parameter;
theorems assume only that it permutes its argument. -/
def preLimitDataset [Inhabited L] (labelFilter : Option ℕ) (balanceAfterFilter : Option ℚ)
    (shuffle : List (Row σ L) → List (Row σ L)) (truthy : L → Bool)
    (dataset : List (Row σ L)) : List (Row σ L) :=
  match labelFilter with
  | none => dataset
  | some k => shuffle (balancedRows truthy k balanceAfterFilter dataset)

/-- Embedding of the dataset finally handed to the `DataLoader` by
`XYBaseDataModule.dataloader` (base.py:80-100): the pipeline above
followed by `dataset[: self.data_limit]` when `data_limit` is set. -/
def dataloaderDataset [Inhabited L] (labelFilter : Option ℕ) (balanceAfterFilter : Option ℚ)
    (dataLimit : Option ℕ) (shuffle : List (Row σ L) → List (Row σ L)) (truthy : L → Bool)
    (dataset : List (Row σ L)) : List (Row σ L) :=
  let d := preLimitDataset labelFilter balanceAfterFilter shuffle truthy dataset
  match dataLimit with
  | some n => d.take n
  | none => d

/-- Embedding of the constructor assertion of `XYBaseDataModule.__init__`
(base.py:40-43): `assert (balance_after_filter is not None) or
(self.label_filter is None)`.  The constructor succeeds iff this is
`true`. -/
def xyInitAssertOk (labelFilter : Option ℕ) (balanceAfterFilter : Option ℚ) : Bool :=
  balanceAfterFilter.isSome || labelFilter.isNone

/-! ## Ragged collation: `chebai/preprocessing/collate.py`

Sequences are lists of integers (token ids resp. labels).  `XYData` is
the container from `chebai.preprocessing.structures`: the padded `x`
and `y` tensors plus the additional field `lens`. -/

/-- The batch container built by the collaters.  Modelled from the spec:
`chebai/preprocessing/structures.py` is not part of the sources; per the
spec and the collater's call site it is a plain record of the collated
`x`, `y` and any additional fields (here `lens`). -/
structure XYData where
  x : List (List ℤ)
  y : List (List ℤ)
  lens : List ℕ
  deriving Repr, DecidableEq

/-- Length of the longest sequence in a batch. -/
def maxLen (xs : List (List ℤ)) : ℕ :=
  (xs.map List.length).foldr max 0

/-- Embedding of `torch.nn.utils.rnn.pad_sequence(_, batch_first=True)`:
every sequence is padded at its end with the padding value `0` up to the
length of the longest sequence of the batch, keeping the batch order. -/
def padSequence (xs : List (List ℤ)) : List (List ℤ) :=
  xs.map (fun a => a ++ List.replicate (maxLen xs - a.length) 0)

/-- Embedding of `RaggedCollater.__call__` (collate.py:22-28):
`x, y = zip(*data)`, then `XYData(pad_sequence(x), pad_sequence(y),
additional_fields=dict(lens=list(map(len, x))))`.  (`zip(*data)` raises
on an empty batch; theorems assume a non-empty one.) -/
def raggedCollate (data : List (List ℤ × List ℤ)) : XYData :=
  let x := data.map Prod.fst
  let y := data.map Prod.snd
  { x := padSequence x
    y := padSequence y
    lens := x.map List.length }

/-! ## Training-step plumbing: `chebai/models/base.py`

`JCIBaseNet._execute`, `training_step` and `validation_step` only move
values between the model's `forward`, the loss/metric objects, the
logger and the return value.  The numeric primitives (the
`BCEWithLogitsLoss` object, the `F1` and `MeanSquaredError` metrics,
`torch.sigmoid`, `.float()` and `.int()` casts) are abstract functions
over abstract tensor types; the theorems are about the data flow. -/

/-- An instantiated `JCIBaseNet` together with the library primitives it
calls.  `B` is the batch type, `V` the float-tensor type, `W` the
int-tensor type. -/
structure JCINet (B V W : Type) where
  forwardM : B → V
  yFloat : B → V
  toInt : V → W
  sigmoid : V → V
  bceLoss : V → V → V
  f1Metric : W → V → V
  mseMetric : V → V → V

variable {B V W : Type}

/-- Embedding of `JCIBaseNet._execute` (chebai base.py:33-39):
`pred = self(batch)`, `labels = batch.y.float()`,
`loss = self.loss(pred, labels)`,
`f1 = self.f1(target=labels.int(), preds=torch.sigmoid(pred))`,
`mse = self.mse(labels, torch.sigmoid(pred))`. -/
def jciExecute (M : JCINet B V W) (batch : B) : V × V × V :=
  let pred := M.forwardM batch
  let labels := M.yFloat batch
  let loss := M.bceLoss pred labels
  let f1 := M.f1Metric (M.toInt labels) (M.sigmoid pred)
  let mse := M.mseMetric labels (M.sigmoid pred)
  (loss, f1, mse)

/-- Embedding of `JCIBaseNet.training_step` (chebai base.py:41-67): run
`_execute`, log the three values under the `train_*` keys, return the
loss.  The result is the returned loss together with the list of
`self.log` calls (key, logged value) in order. -/
def jciTrainingStep (M : JCINet B V W) (batch : B) : V × List (String × V) :=
  let e := jciExecute M batch
  (e.1, [("train_loss", e.1), ("train_f1", e.2.1), ("train_mse", e.2.2)])

/-- Embedding of `JCIBaseNet.validation_step` (chebai base.py:69-96):
the same computation as `training_step` inside a `torch.no_grad()`
block (gradient tracking has no counterpart in this value-level
embedding), logged under the `val_*` keys. -/
def jciValidationStep (M : JCINet B V W) (batch : B) : V × List (String × V) :=
  let e := jciExecute M batch
  (e.1, [("val_loss", e.1), ("val_f1", e.2.1), ("val_mse", e.2.2)])

/-- The training step as the spec sentence describes it, written
independently of `_execute`: return exactly the BCE-with-logits loss of
the model's forward output against `batch.y` cast to float, and log that
same loss as `train_loss`, an F1 score computed from the sigmoid of the
predictions as `train_f1`, and an MSE computed from the sigmoid of the
predictions as `train_mse`. -/
def specTrainingStep (M : JCINet B V W) (batch : B) : V × List (String × V) :=
  (M.bceLoss (M.forwardM batch) (M.yFloat batch),
    [("train_loss", M.bceLoss (M.forwardM batch) (M.yFloat batch)),
     ("train_f1", M.f1Metric (M.toInt (M.yFloat batch)) (M.sigmoid (M.forwardM batch))),
     ("train_mse", M.mseMetric (M.yFloat batch) (M.sigmoid (M.forwardM batch)))])

/-- The validation step as the spec sentence describes it: the same
three quantities, logged as `val_loss`, `val_f1`, `val_mse`, with the
same loss returned. -/
def specValidationStep (M : JCINet B V W) (batch : B) : V × List (String × V) :=
  (M.bceLoss (M.forwardM batch) (M.yFloat batch),
    [("val_loss", M.bceLoss (M.forwardM batch) (M.yFloat batch)),
     ("val_f1", M.f1Metric (M.toInt (M.yFloat batch)) (M.sigmoid (M.forwardM batch))),
     ("val_mse", M.mseMetric (M.yFloat batch) (M.sigmoid (M.forwardM batch)))])

/-! ## ELECTRA pre-training corruption: `chebai/models/electra.py`

`ElectraPre._get_data_and_labels` (electra.py:30-55) walks each row of
`batch.x`; at each position it may (with probability `p`, and only when
the row has a second distinct token value) replace the token by
repeatedly drawing `random.choice(row)` until the draw differs from the
original token, labelling replaced positions 1 and kept positions 0.
Randomness is modelled by oracles: `fires i` is the outcome of
`random.random() < self._p` at position `i`, and `choices i` is the
stream of successive `random.choice(row)` results consumed by the
`while` loop at position `i`.  A stream that never yields a different
token corresponds to the non-terminating run of the `while` loop,
modelled as `none`. -/

/-- The `while t0 == t: t0 = random.choice(row)` loop: the first element
of the draw stream different from `t`. -/
def drawNotEq (t : ℕ) (cs : List ℕ) : Option ℕ :=
  cs.find? (fun c => c != t)

/-- The body of the per-position loop of `_get_data_and_labels`: keep
`(t, 0)` unless the row has a token different from `t`
(`not all(x == t for x in vocabular)`, with `vocabular = set(row)`) and
the coin fires, in which case emit the first differing draw with label
1. -/
def corruptToken (row : List ℕ) (t : ℕ) (fires : Bool) (cs : List ℕ) : Option (ℕ × ℕ) :=
  if row.any (fun x => x != t) && fires then
    (drawNotEq t cs).map (fun t0 => (t0, 1))
  else
    some (t, 0)

/-- `ElectraPre._get_data_and_labels` restricted to one row of
`batch.x`: the emitted token row paired with the emitted label row. -/
def getDataAndLabelsRow (fires : ℕ → Bool) (choices : ℕ → List ℕ) (row : List ℕ) :
    Option (List ℕ × List ℕ) :=
  ((List.range row.length).mapM
    (fun i => corruptToken row (row.getD i 0) (fires i) (choices i))).map List.unzip

/-! ## Output shapes of the models

The claims about the number of predicted classes are claims about the
shape of the tensor returned by each `forward`; we give the standard
shape semantics of the torch operations involved and chain them exactly
as the three `forward` methods do. -/

/-- The shape of a torch tensor: its list of dimension sizes. -/
abbrev Shape := List ℕ

/-- Shape action of `nn.Linear(_, outF)` (and of the elementwise
`ReLU`/`Dropout`/sigmoid layers, which preserve shapes): the last
dimension becomes `outF`. -/
def linearShape (outF : ℕ) (s : Shape) : Shape :=
  s.dropLast ++ [outF]

/-- Shape action of `nn.Embedding(_, d)`: appends the feature dimension. -/
def embeddingShape (d : ℕ) (s : Shape) : Shape :=
  s ++ [d]

/-- Shape action of `tensor.squeeze(i)`: dimension `i` is removed iff
its size is 1. -/
def squeezeDim (i : ℕ) (s : Shape) : Shape :=
  if s.getD i 0 = 1 then s.eraseIdx i else s

/-- Shape action of indexing dimension 1 (`m[:, 0]`) and of
`torch.sum(_, dim=1)`: dimension 1 disappears. -/
def dropDim1 (s : Shape) : Shape :=
  s.eraseIdx 1

/-- Shape of the final hidden state `h_n` (`self.lstm(x)[1][0]`) of a
one-layer unidirectional `nn.LSTM(_, outD)`: `[1, batch, outD]`. -/
def lstmHiddenShape (outD : ℕ) (s : Shape) : Shape :=
  [1, s.headD 0, outD]

/-- Output shape of `ChemLSTM.forward` (lstm.py:18-23) on a batch of
shape `[batch, seqLen]`: embed, take the LSTM final hidden state, apply
the two-linear-layer head, and `squeeze(0)` the (always size-1) layer
dimension. -/
def chemLSTMForwardShape (inD outD numClasses batch seqLen : ℕ) : Shape :=
  squeezeDim 0 (linearShape numClasses (linearShape inD
    (lstmHiddenShape outD (embeddingShape 100 [batch, seqLen]))))

/-- Output shape of `ChemYK.forward` (chemyk.py:32-45) on a batch of
shape `[batch, seqLen]` with `seqLen ≥ 1`: after the width loop the
running level holds the `seqLen - (seqLen - 1) = 1` full-length span
(see `chemYK_forward_builds_cyk_chart` for the value-level chart),
`m[:, 0]` selects it, the head maps the feature dimension to
`numClasses`, and the result is `squeeze(1)`-ed. -/
def chemYKForwardShape (inD numClasses batch seqLen : ℕ) : Shape :=
  squeezeDim 1 (linearShape numClasses (linearShape inD
    (dropDim1 [batch, seqLen - (seqLen - 1), inD])))

/-- Output shape of `Electra.forward` (electra.py:91-94) on a batch of
shape `[batch, seqLen]`: the encoder's `last_hidden_state` is
`[batch, seqLen, hidden]`, summed over dim 1, then passed through the
head whose final layer is the hard-coded `nn.Linear(in_d, 500)`. -/
def electraForwardShape (hidden batch seqLen : ℕ) : Shape :=
  linearShape 500 (linearShape hidden (linearShape hidden (linearShape hidden
    (dropDim1 (embeddingShape hidden [batch, seqLen])))))

/-! ## The CYK chart of `ChemYK.forward`: `chem/models/chemyk.py`

`ChemYK.merge` acts pointwise in the start-position dimension of the
stacked tensors it receives (its linear layers act on the feature
dimension, the gate softmax is over the stacked left/right pair, and
the attention softmax is over the batch dimension — no operation mixes
start positions).  A level tensor `h[i]` is therefore modelled as a
list, indexed by start position, of opaque per-position slices of type
`α` (each slice holding the batch and feature dimensions), and `merge`
as an abstract function `mrg` taking the split-indexed stacks at one
position.  The claim is structural — which sub-spans are merged into
which chart entries — so it must hold for every `mrg`. -/

section ChemYKChart

variable {γ α β : Type} [Inhabited α]

/-- Pointwise application of `self.merge(l, r)` (chemyk.py:43) to the
stacked tensors: `l` and `r` are split-indexed lists of level rows, and
position `p` of the result merges the split-indexed stacks at `p`. -/
def mergeStack (mrg : List α → List α → α) (l r : List (List α)) (positions : ℕ) : List α :=
  (List.range positions).map (fun p =>
    mrg (l.map (fun row => row.getD p default)) (r.map (fun row => row.getD p default)))

/-- One iteration of the width loop of `ChemYK.forward` (chemyk.py:37-44):
`ls = [h[i][:, :(max_width-width)] for i in range(width)]`,
`rs = [h[i][:, (width-i):] for i in range(width)]`,
`m = self.merge(torch.stack(ls), torch.stack(rs).flip(0))`. -/
def chemYKStep (mrg : List α → List α → α) (maxWidth : ℕ) (h : List (List α))
    (width : ℕ) : List α :=
  let ls := (List.range width).map (fun i => (h.getD i []).take (maxWidth - width))
  let rs := (List.range width).map (fun i => (h.getD i []).drop (width - i))
  mergeStack mrg ls rs.reverse (maxWidth - width)

/-- The list of levels `h` built by `ChemYK.forward` (chemyk.py:32-44):
`h = [self.embedding(data.x)]`, then one `chemYKStep` per width in
`range(1, max_width)`, each appended to `h`. -/
def chemYKLevels (embed : γ → α) (mrg : List α → List α → α) (x : List γ) :
    List (List α) :=
  (List.range' 1 (x.length - 1)).foldl
    (fun h width => h ++ [chemYKStep mrg x.length h width]) [x.map embed]

/-- The value returned by `ChemYK.forward` (chemyk.py:45): the output
head applied to position 0 of the last computed level,
`self.output(m[:, 0])` (the trailing `squeeze(1)` is shape bookkeeping,
handled by `chemYKForwardShape`, and is absorbed into `out` here). -/
def chemYKForward (embed : γ → α) (mrg : List α → List α → α) (out : α → β)
    (x : List γ) : β :=
  out (((chemYKLevels embed mrg x).getLastD []).getD 0 default)

/-- The CYK chart as the claim describes it: `chemYKChart embed mrg x w p`
represents the contiguous subsequence of `x` of length `w + 1` starting
at `p`.  Level 0 is the token embedding; the entry of level `w ≥ 1` at
`p` is `mrg` applied to the stacked pairs (left: level `i` at `p`,
right: level `w - 1 - i` at `p + i + 1`) over the split points
`i ∈ [0, w)`. -/
def chemYKChart (embed : γ → α) (mrg : List α → List α → α) (x : List γ) :
    ℕ → ℕ → α
  | 0, p => (x.map embed).getD p default
  | (w + 1), p =>
    mrg
      ((List.range (w + 1)).attach.map (fun i => chemYKChart embed mrg x i.1 p))
      ((List.range (w + 1)).attach.map
        (fun i => chemYKChart embed mrg x (w - i.1) (p + i.1 + 1)))
  termination_by w _ => w
  decreasing_by
  · have hi := List.mem_range.mp i.2
    omega
  · omega

end ChemYKChart

/-! ## Softmax normalization inside `ChemYK.merge` and `ChemYK.attention`

`torch.softmax(x, dim)` computes `exp x` normalized along `dim`.  The
exponential is modelled by a function parameter `e`; the claims at issue
(nonnegativity and which dimension the weights sum to one over) hold,
or fail, for every strictly positive `e`, so `exp` is covered.  Tensors
of shape `(w, b, p, d)` — split, batch, position, feature — are total
functions on `Fin` index types. -/

/-- A rank-4 tensor of shape `(w, b, p, d)` over `ℚ`. -/
abbrev T4 (w b p d : ℕ) := Fin w → Fin b → Fin p → Fin d → ℚ

/-- The learned layers of `ChemYK` used by `merge` and `attention`:
`self.a_l`, `self.a_r`, `self.s` (each a `Linear(d, 1)`) and `self.w_l`,
`self.w_r` (each a `Linear(d, d)`), applied to the feature dimension.
Their linearity plays no role in the normalization claims, so they are
abstract functions. -/
structure ChemYKParams (d : ℕ) where
  aL : (Fin d → ℚ) → ℚ
  aR : (Fin d → ℚ) → ℚ
  sL : (Fin d → ℚ) → ℚ
  wL : (Fin d → ℚ) → Fin d → ℚ
  wR : (Fin d → ℚ) → Fin d → ℚ

variable {w b p d : ℕ}

/-- The gate weight of the left part in `ChemYK.merge` (chemyk.py:48-49):
coordinate `(i, j, k)` of `beta[0]` where
`beta = torch.softmax(torch.stack([self.a_l(l), self.a_r(r)]), 0)` —
softmax over the stacked pair. -/
def mergeBetaL (e : ℚ → ℚ) (P : ChemYKParams d) (l r : T4 w b p d)
    (i : Fin w) (j : Fin b) (k : Fin p) : ℚ :=
  e (P.aL (l i j k)) / (e (P.aL (l i j k)) + e (P.aR (r i j k)))

/-- The gate weight of the right part in `ChemYK.merge`: coordinate
`(i, j, k)` of `beta[1]`. -/
def mergeBetaR (e : ℚ → ℚ) (P : ChemYKParams d) (l r : T4 w b p d)
    (i : Fin w) (j : Fin b) (k : Fin p) : ℚ :=
  e (P.aR (r i j k)) / (e (P.aL (l i j k)) + e (P.aR (r i j k)))

/-- The tensor handed by `merge` to `attention` (chemyk.py:50):
`torch.sum(beta * torch.stack([self.w_l(l), self.w_r(r)]), dim=0)`
(the size-1 trailing dimension of `beta` broadcasts over the features). -/
def mergeParts (e : ℚ → ℚ) (P : ChemYKParams d) (l r : T4 w b p d) : T4 w b p d :=
  fun i j k t =>
    mergeBetaL e P l r i j k * P.wL (l i j k) t +
      mergeBetaR e P l r i j k * P.wR (r i j k) t

/-- The attention weights `at = torch.softmax(self.s(parts), 1)` of
`ChemYK.attention` (chemyk.py:53): softmax over dim 1 of
`self.s(parts)`, which for `parts` of shape `(w, b, p, d)` is the batch
dimension. -/
def attentionWeights (e : ℚ → ℚ) (P : ChemYKParams d) (parts : T4 w b p d)
    (i : Fin w) (j : Fin b) (k : Fin p) : ℚ :=
  e (P.sL (parts i j k)) / ∑ j2 : Fin b, e (P.sL (parts i j2 k))

/-- The value of `ChemYK.attention` (chemyk.py:54):
`torch.sum(at * parts, dim=0)` — the weights multiply `parts` by
broadcasting and the sum runs over dim 0, the split dimension. -/
def attentionOut (e : ℚ → ℚ) (P : ChemYKParams d) (parts : T4 w b p d)
    (j : Fin b) (k : Fin p) (t : Fin d) : ℚ :=
  ∑ i : Fin w, attentionWeights e P parts i j k * parts i j k t

/-- The value of `ChemYK.merge` (chemyk.py:47-50) over the modelled
tensors: the gated combination handed to `attention`. -/
def mergeOut (e : ℚ → ℚ) (P : ChemYKParams d) (l r : T4 w b p d)
    (j : Fin b) (k : Fin p) (t : Fin d) : ℚ :=
  attentionOut e P (mergeParts e P l r) j k t

/-! ## Helper lemmas -/

theorem getD_map_lt {α β : Type} (f : α → β) (l : List α) (i : ℕ) (h : i < l.length)
    (dfl : β) (dfl2 : α) : (l.map f).getD i dfl = f (l.getD i dfl2) := by
  rw [List.getD_eq_getElem _ _ (by simpa using h), List.getD_eq_getElem _ _ h,
    List.getElem_map]

theorem getD_map_range {α : Type} (g : ℕ → α) (m i : ℕ) (h : i < m) (dfl : α) :
    ((List.range m).map g).getD i dfl = g i := by
  rw [getD_map_lt g _ i (by simpa using h) dfl 0,
    List.getD_eq_getElem _ _ (by simpa using h), List.getElem_range]

theorem list_eq_range_map_getD {α : Type} (dfl : α) (l : List α) :
    (List.range l.length).map (fun i => l.getD i dfl) = l := by
  apply List.ext_getElem
  · simp
  · intro i h1 h2
    rw [List.getElem_map, List.getElem_range, List.getD_eq_getElem _ _ h2]

theorem le_foldr_max (l : List ℕ) : ∀ y ∈ l, y ≤ l.foldr max 0 := by
  induction l with
  | nil => intro y hy; cases hy
  | cons a l ih =>
    intro y hy
    rcases List.mem_cons.mp hy with h | h
    · subst h; exact le_max_left _ _
    · exact le_trans (ih y h) (le_max_right _ _)

theorem mapM_eq_some_map {α β : Type} (f : α → Option β) (g : α → β) (l : List α)
    (h : ∀ a ∈ l, f a = some (g a)) : l.mapM f = some (l.map g) := by
  induction l with
  | nil => rfl
  | cons a l ih =>
    rw [List.mapM_cons, h a (List.mem_cons_self a l),
      ih (fun a ha => h a (List.mem_cons_of_mem _ ha))]
    rfl

/-! ## Claims -/

/-- C8: the constructor of `XYBaseDataModule` fails its assertion iff
`label_filter` is set while `balance_after_filter` is `None`; in
particular, `balance_after_filter` set with `label_filter` `None`
passes.  (The code enforces "filtering requires balancing", not the
dependency the assertion message announces.) -/
theorem xyInit_assert_characterization (lf : Option ℕ) (bal : Option ℚ) (q : ℚ) :
    (xyInitAssertOk lf bal = false ↔ lf ≠ none ∧ bal = none) ∧
    xyInitAssertOk none (some q) = true := by
  refine ⟨?_, rfl⟩
  cases lf <;> cases bal <;> simp [xyInitAssertOk]

/-- C10: with `data_limit = some n`, the dataset handed to the
`DataLoader` is the first `n` elements of the dataset obtained after
label filtering, balancing and shuffling — hence never longer than `n`;
with `data_limit = none` it is that dataset unchanged. -/
theorem dataloader_data_limit {σ L : Type} [Inhabited L] (lf : Option ℕ)
    (bal : Option ℚ) (n : ℕ) (shuffle : List (Row σ L) → List (Row σ L))
    (truthy : L → Bool) (dataset : List (Row σ L)) :
    dataloaderDataset lf bal (some n) shuffle truthy dataset =
      (preLimitDataset lf bal shuffle truthy dataset).take n ∧
    (dataloaderDataset lf bal (some n) shuffle truthy dataset).length ≤ n ∧
    dataloaderDataset lf bal none shuffle truthy dataset =
      preLimitDataset lf bal shuffle truthy dataset := by
  refine ⟨rfl, ?_, rfl⟩
  exact List.length_take_le n _

/-- C6: `training_step` and `validation_step` are metric-logging
boilerplate: both return exactly the BCE-with-logits loss of the
forward output against `batch.y` cast to float, and log that loss, the
F1 of the sigmoid of the predictions against the integer labels, and
the MSE of the sigmoid of the predictions against the float labels,
under the `train_*` resp. `val_*` keys — precisely the spec-side
step descriptions. -/
theorem jci_steps_are_boilerplate {B V W : Type} (M : JCINet B V W) (batch : B) :
    jciTrainingStep M batch = specTrainingStep M batch ∧
    jciValidationStep M batch = specValidationStep M batch ∧
    (jciTrainingStep M batch).1 = M.bceLoss (M.forwardM batch) (M.yFloat batch) ∧
    (jciValidationStep M batch).1 = (jciTrainingStep M batch).1 :=
  ⟨rfl, rfl, rfl, rfl⟩

/-- C3 (amended): `ChemLSTM`'s forward output has final dimension equal
to the configured number of classes, unconditionally; `ChemYK`'s does
whenever `num_classes ≠ 1`, while with `num_classes = 1` its trailing
`squeeze(1)` drops the class dimension and the output is a 1-D tensor
of batch length; `Electra`'s final dimension is the hard-coded `500` of
its final `nn.Linear(in_d, 500)`, unconditionally. -/
theorem models_forward_last_dim (inD outD numClasses batch seqLen hidden ykLen : ℕ) :
    (chemLSTMForwardShape inD outD numClasses batch seqLen).getLastD 0 = numClasses ∧
    (numClasses ≠ 1 →
      (chemYKForwardShape inD numClasses batch ykLen).getLastD 0 = numClasses) ∧
    chemYKForwardShape inD 1 batch ykLen = [batch] ∧
    (electraForwardShape hidden batch seqLen).getLastD 0 = 500 := by
  refine ⟨rfl, fun hnc => ?_, rfl, rfl⟩
  simp [chemYKForwardShape, linearShape, dropDim1, squeezeDim, hnc]

theorem models_forward_last_dim_witness :
    ((7 : ℕ) ≠ 1) ∧
    ((chemLSTMForwardShape 3 4 7 2 5).getLastD 0 = 7 ∧
    (chemYKForwardShape 3 7 2 9).getLastD 0 = 7 ∧
    chemYKForwardShape 3 1 2 9 = [2] ∧
    (electraForwardShape 6 2 5).getLastD 0 = 500) :=
  ⟨by decide,
    (models_forward_last_dim 3 4 7 2 5 6 9).1,
    (models_forward_last_dim 3 4 7 2 5 6 9).2.1 (by decide),
    (models_forward_last_dim 3 4 7 2 5 6 9).2.2.1,
    (models_forward_last_dim 3 4 7 2 5 6 9).2.2.2⟩

/-- C3 (counterexample): a `ChemYK` model constructed with
`num_classes = 1` applied to a batch of 2 sequences of length 3 returns
a tensor of shape `[2]`: its final dimension is the batch size 2, not
the configured class count 1. -/
theorem chemYK_squeeze_drops_class_dim :
    chemYKForwardShape 5 1 2 3 = [2] ∧ (chemYKForwardShape 5 1 2 3).getLastD 0 ≠ 1 := by
  exact ⟨rfl, by decide⟩

theorem padSequence_spec (xs : List (List ℤ)) :
    (padSequence xs).length = xs.length ∧
    ∀ i < xs.length,
      ((padSequence xs).getD i []).length = maxLen xs ∧
      ((padSequence xs).getD i []).take (xs.getD i []).length = xs.getD i [] := by
  refine ⟨by simp [padSequence], fun i hi => ?_⟩
  have hx : (padSequence xs).getD i [] =
      xs.getD i [] ++ List.replicate (maxLen xs - (xs.getD i []).length) 0 :=
    getD_map_lt _ xs i hi [] []
  have hmem : xs.getD i [] ∈ xs := by
    rw [List.getD_eq_getElem _ _ hi]; exact List.getElem_mem hi
  have hle : (xs.getD i []).length ≤ maxLen xs :=
    le_foldr_max _ _ (List.mem_map_of_mem List.length hmem)
  refine ⟨?_, ?_⟩
  · rw [hx, List.length_append, List.length_replicate]; omega
  · rw [hx]; exact List.take_left _ _

/-- C7: for a non-empty batch, `RaggedCollater.__call__` returns an
`XYData` whose `x` holds the feature sequences padded to the length of
the longest `x` of the batch (batch-first, each original sequence kept
as the initial segment, in input order), whose `y` holds the label
sequences likewise padded (to the longest `y`), and whose additional
field `lens` lists the original `x` lengths in input order. -/
theorem ragged_collater_pads_and_records_lens (data : List (List ℤ × List ℤ))
    (hne : data ≠ []) :
    (raggedCollate data).x.length = data.length ∧
    (raggedCollate data).y.length = data.length ∧
    (∀ i < data.length,
      ((raggedCollate data).x.getD i []).length = maxLen (data.map Prod.fst) ∧
      ((raggedCollate data).x.getD i []).take ((data.map Prod.fst).getD i []).length =
        (data.map Prod.fst).getD i [] ∧
      ((raggedCollate data).y.getD i []).length = maxLen (data.map Prod.snd) ∧
      ((raggedCollate data).y.getD i []).take ((data.map Prod.snd).getD i []).length =
        (data.map Prod.snd).getD i []) ∧
    (raggedCollate data).lens = (data.map Prod.fst).map List.length := by
  have hxlen : (data.map Prod.fst).length = data.length := List.length_map _ _
  have hylen : (data.map Prod.snd).length = data.length := List.length_map _ _
  have hx := padSequence_spec (data.map Prod.fst)
  have hy := padSequence_spec (data.map Prod.snd)
  refine ⟨by simpa [raggedCollate] using hxlen ▸ hx.1,
    by simpa [raggedCollate] using hylen ▸ hy.1, fun i hi => ?_, rfl⟩
  have hix : i < (data.map Prod.fst).length := by omega
  have hiy : i < (data.map Prod.snd).length := by omega
  exact ⟨(hx.2 i hix).1, (hx.2 i hix).2, (hy.2 i hiy).1, (hy.2 i hiy).2⟩

theorem ragged_collater_witness :
    (([([1, 2], [1]), ([3], [0, 1])] : List (List ℤ × List ℤ)) ≠ []) ∧
    ((raggedCollate [([1, 2], [1]), ([3], [0, 1])]).x.length =
      ([([1, 2], [1]), ([3], [0, 1])] : List (List ℤ × List ℤ)).length ∧
    (raggedCollate [([1, 2], [1]), ([3], [0, 1])]).y.length =
      ([([1, 2], [1]), ([3], [0, 1])] : List (List ℤ × List ℤ)).length ∧
    (∀ i < ([([1, 2], [1]), ([3], [0, 1])] : List (List ℤ × List ℤ)).length,
      ((raggedCollate [([1, 2], [1]), ([3], [0, 1])]).x.getD i []).length =
        maxLen (([([1, 2], [1]), ([3], [0, 1])] : List (List ℤ × List ℤ)).map Prod.fst) ∧
      ((raggedCollate [([1, 2], [1]), ([3], [0, 1])]).x.getD i []).take
          ((([([1, 2], [1]), ([3], [0, 1])] : List (List ℤ × List ℤ)).map
            Prod.fst).getD i []).length =
        (([([1, 2], [1]), ([3], [0, 1])] : List (List ℤ × List ℤ)).map Prod.fst).getD i [] ∧
      ((raggedCollate [([1, 2], [1]), ([3], [0, 1])]).y.getD i []).length =
        maxLen (([([1, 2], [1]), ([3], [0, 1])] : List (List ℤ × List ℤ)).map Prod.snd) ∧
      ((raggedCollate [([1, 2], [1]), ([3], [0, 1])]).y.getD i []).take
          ((([([1, 2], [1]), ([3], [0, 1])] : List (List ℤ × List ℤ)).map
            Prod.snd).getD i []).length =
        (([([1, 2], [1]), ([3], [0, 1])] : List (List ℤ × List ℤ)).map Prod.snd).getD i []) ∧
    (raggedCollate [([1, 2], [1]), ([3], [0, 1])]).lens =
      (([([1, 2], [1]), ([3], [0, 1])] : List (List ℤ × List ℤ)).map Prod.fst).map
        List.length) :=
  ⟨by decide, ragged_collater_pads_and_records_lens _ (by decide)⟩

/-- C4: when `label_filter = some k` (any balancing, any data limit, any
permutation in place of `random.shuffle`), every row handed to the
`DataLoader` has a labels list of length exactly one whose element is
the label at index `k` of the original row it came from; when
`label_filter = none`, the pre-limit dataset is handed over with every
row unchanged. -/
theorem label_filter_singleton_labels {σ L : Type} [Inhabited L] (k : ℕ)
    (bal : Option ℚ) (limit : Option ℕ)
    (shuffle : List (Row σ L) → List (Row σ L)) (truthy : L → Bool)
    (dataset : List (Row σ L))
    (hsh : ∀ l2, (shuffle l2).Perm l2)
    (hk : ∀ r ∈ dataset, k < r.labels.length) :
    (∀ r ∈ dataloaderDataset (some k) bal limit shuffle truthy dataset,
      r.labels.length = 1 ∧
      ∃ orig ∈ dataset,
        k < orig.labels.length ∧ r.labels = [orig.labels.getD k default]) ∧
    (∀ bal2 shuffle2, preLimitDataset none bal2 shuffle2 truthy dataset = dataset) := by
  refine ⟨fun r hr => ?_, fun bal2 shuffle2 => rfl⟩
  have hr1 : r ∈ preLimitDataset (some k) bal shuffle truthy dataset := by
    cases limit with
    | none => exact hr
    | some n => exact List.take_subset n _ hr
  have hr2 : r ∈ balancedRows truthy k bal dataset :=
    (hsh (balancedRows truthy k bal dataset)).mem_iff.mp hr1
  have hr3 : r ∈ filteredRows k dataset := by
    cases bal with
    | none =>
      rcases List.mem_append.mp hr2 with h | h
      · exact List.mem_of_mem_filter h
      · exact List.mem_of_mem_filter h
    | some q =>
      rcases List.mem_append.mp hr2 with h | h
      · exact List.mem_of_mem_filter h
      · have : r ∈ negativeRows truthy k dataset := by
          unfold pySliceTo at h
          split at h
          · exact List.take_subset _ _ h
          · exact List.take_subset _ _ h
        exact List.mem_of_mem_filter this
  rcases List.mem_map.mp hr3 with ⟨orig, horig, hfe⟩
  subst hfe
  exact ⟨rfl, orig, horig, hk orig horig, rfl⟩

theorem label_filter_singleton_labels_witness :
    (∀ l2 : List (Row ℕ Bool), (id l2).Perm l2) ∧
    (∀ r ∈ ([⟨0, [true]⟩, ⟨1, [false]⟩] : List (Row ℕ Bool)), 0 < r.labels.length) ∧
    ((∀ r ∈ dataloaderDataset (some 0) (some 1) none id (fun x => x)
        ([⟨0, [true]⟩, ⟨1, [false]⟩] : List (Row ℕ Bool)),
      r.labels.length = 1 ∧
      ∃ orig ∈ ([⟨0, [true]⟩, ⟨1, [false]⟩] : List (Row ℕ Bool)),
        0 < orig.labels.length ∧ r.labels = [orig.labels.getD 0 default]) ∧
    (∀ bal2 shuffle2, preLimitDataset none bal2 shuffle2 (fun x => x)
        ([⟨0, [true]⟩, ⟨1, [false]⟩] : List (Row ℕ Bool)) =
      [⟨0, [true]⟩, ⟨1, [false]⟩])) :=
  ⟨fun l2 => List.Perm.refl l2, by decide,
    label_filter_singleton_labels 0 (some 1) none id (fun x => x) _
      (fun l2 => List.Perm.refl l2) (by decide)⟩

/-- C5: with `label_filter = some k` and `balance_after_filter = some q`
(`q ≥ 0`, as a balancing ratio is), the pre-limit dataset is a
permutation of all positive rows followed by the first
`min(original dataset length, ⌊(number of positives) * q⌋)` negative
rows; in particular no positive row is ever dropped by balancing. -/
theorem balance_after_filter_keeps_positives {σ L : Type} [Inhabited L] (k : ℕ)
    (q : ℚ) (shuffle : List (Row σ L) → List (Row σ L)) (truthy : L → Bool)
    (dataset : List (Row σ L))
    (hsh : ∀ l2, (shuffle l2).Perm l2) (hq : 0 ≤ q) :
    (preLimitDataset (some k) (some q) shuffle truthy dataset).Perm
      (positiveRows truthy k dataset ++
        (negativeRows truthy k dataset).take
          (Int.toNat (min (dataset.length : ℤ)
            ⌊((positiveRows truthy k dataset).length : ℚ) * q⌋))) ∧
    ∀ r ∈ positiveRows truthy k dataset,
      r ∈ preLimitDataset (some k) (some q) shuffle truthy dataset := by
  have hx : (0 : ℚ) ≤ ((positiveRows truthy k dataset).length : ℚ) * q :=
    mul_nonneg (by positivity) hq
  have hfl : (0 : ℤ) ≤ ⌊((positiveRows truthy k dataset).length : ℚ) * q⌋ :=
    Int.floor_nonneg.mpr hx
  have hnl : negativeLength truthy k q dataset =
      min (dataset.length : ℤ) ⌊((positiveRows truthy k dataset).length : ℚ) * q⌋ := by
    unfold negativeLength pyInt
    rw [if_pos hx]
  have hnn : (0 : ℤ) ≤ negativeLength truthy k q dataset := by
    rw [hnl]
    exact le_min (by positivity) hfl
  have hslice : pySliceTo (negativeRows truthy k dataset)
      (negativeLength truthy k q dataset) =
      (negativeRows truthy k dataset).take
        (Int.toNat (min (dataset.length : ℤ)
          ⌊((positiveRows truthy k dataset).length : ℚ) * q⌋)) := by
    unfold pySliceTo
    rw [if_pos hnn, hnl]
  have h2 : balancedRows truthy k (some q) dataset =
      positiveRows truthy k dataset ++
        (negativeRows truthy k dataset).take
          (Int.toNat (min (dataset.length : ℤ)
            ⌊((positiveRows truthy k dataset).length : ℚ) * q⌋)) := by
    show positiveRows truthy k dataset ++
        pySliceTo (negativeRows truthy k dataset) (negativeLength truthy k q dataset) = _
    rw [hslice]
  have hperm : (preLimitDataset (some k) (some q) shuffle truthy dataset).Perm
      (positiveRows truthy k dataset ++
        (negativeRows truthy k dataset).take
          (Int.toNat (min (dataset.length : ℤ)
            ⌊((positiveRows truthy k dataset).length : ℚ) * q⌋))) := by
    have h1 : (preLimitDataset (some k) (some q) shuffle truthy dataset).Perm
        (balancedRows truthy k (some q) dataset) := hsh _
    rw [h2] at h1
    exact h1
  refine ⟨hperm, fun r hr => ?_⟩
  exact hperm.mem_iff.mpr (List.mem_append_left _ hr)

theorem balance_after_filter_keeps_positives_witness :
    (∀ l2 : List (Row ℕ Bool), (id l2).Perm l2) ∧ ((0 : ℚ) ≤ 1) ∧
    ((preLimitDataset (some 0) (some 1) id (fun x => x)
        ([⟨0, [true]⟩, ⟨1, [false]⟩] : List (Row ℕ Bool))).Perm
      (positiveRows (fun x => x) 0 ([⟨0, [true]⟩, ⟨1, [false]⟩] : List (Row ℕ Bool)) ++
        (negativeRows (fun x => x) 0
          ([⟨0, [true]⟩, ⟨1, [false]⟩] : List (Row ℕ Bool))).take
          (Int.toNat (min (([⟨0, [true]⟩, ⟨1, [false]⟩] : List (Row ℕ Bool)).length : ℤ)
            ⌊((positiveRows (fun x => x) 0
              ([⟨0, [true]⟩, ⟨1, [false]⟩] : List (Row ℕ Bool))).length : ℚ) * 1⌋))) ∧
    ∀ r ∈ positiveRows (fun x => x) 0 ([⟨0, [true]⟩, ⟨1, [false]⟩] : List (Row ℕ Bool)),
      r ∈ preLimitDataset (some 0) (some 1) id (fun x => x)
        ([⟨0, [true]⟩, ⟨1, [false]⟩] : List (Row ℕ Bool))) :=
  ⟨fun l2 => List.Perm.refl l2, by norm_num,
    balance_after_filter_keeps_positives 0 1 id (fun x => x) _
      (fun l2 => List.Perm.refl l2) (by norm_num)⟩

/-- C2 (amended): in `ChemYK.merge` the gate `beta` is a convex
combination over the stacked left/right pair: at every coordinate both
gate weights are nonnegative and they sum to one.  The attention
weights of `ChemYK.attention` are nonnegative, but they sum to one
across dim 1 — the batch dimension, the one `torch.softmax(_, 1)`
normalizes — not across the split dimension (dim 0) that the subsequent
`torch.sum(_, dim=0)` reduces.  All of this holds for every strictly
positive weighting function `e` in place of `exp`, so in particular for
`exp` itself. -/
theorem chemyk_softmax_normalization {w b p d : ℕ} (e : ℚ → ℚ) (P : ChemYKParams d)
    (l r parts : T4 w b p d) (he : ∀ x2, 0 < e x2) (hb : 0 < b) :
    (∀ i j k, 0 ≤ mergeBetaL e P l r i j k ∧ 0 ≤ mergeBetaR e P l r i j k ∧
      mergeBetaL e P l r i j k + mergeBetaR e P l r i j k = 1) ∧
    (∀ i j k, 0 ≤ attentionWeights e P parts i j k) ∧
    (∀ i k, ∑ j : Fin b, attentionWeights e P parts i j k = 1) := by
  have hne : Nonempty (Fin b) := Fin.pos_iff_nonempty.mp hb
  refine ⟨fun i j k => ?_, fun i j k => ?_, fun i k => ?_⟩
  · have hd : 0 < e (P.aL (l i j k)) + e (P.aR (r i j k)) :=
      add_pos (he _) (he _)
    refine ⟨div_nonneg (le_of_lt (he _)) (le_of_lt hd),
      div_nonneg (le_of_lt (he _)) (le_of_lt hd), ?_⟩
    rw [mergeBetaL, mergeBetaR, div_add_div_same, div_self (ne_of_gt hd)]
  · have hd : 0 < ∑ j2 : Fin b, e (P.sL (parts i j2 k)) :=
      Finset.sum_pos (fun j2 _ => he _) Finset.univ_nonempty
    exact div_nonneg (le_of_lt (he _)) (le_of_lt hd)
  · have hd : 0 < ∑ j2 : Fin b, e (P.sL (parts i j2 k)) :=
      Finset.sum_pos (fun j2 _ => he _) Finset.univ_nonempty
    unfold attentionWeights
    rw [← Finset.sum_div, div_self (ne_of_gt hd)]

theorem chemyk_softmax_normalization_witness :
    (∀ x2 : ℚ, 0 < (fun _ => (1 : ℚ)) x2) ∧ (0 < 1) ∧
    ((∀ (i j k : Fin 1), 0 ≤ mergeBetaL (d := 1) (fun _ => (1 : ℚ))
        ⟨fun v => v 0, fun v => v 0, fun v => v 0, fun v => v, fun v => v⟩
        (fun _ _ _ _ => 0) (fun _ _ _ _ => 0) i j k ∧
      0 ≤ mergeBetaR (d := 1) (fun _ => (1 : ℚ))
        ⟨fun v => v 0, fun v => v 0, fun v => v 0, fun v => v, fun v => v⟩
        (fun _ _ _ _ => 0) (fun _ _ _ _ => 0) i j k ∧
      mergeBetaL (d := 1) (fun _ => (1 : ℚ))
        ⟨fun v => v 0, fun v => v 0, fun v => v 0, fun v => v, fun v => v⟩
        (fun _ _ _ _ => 0) (fun _ _ _ _ => 0) i j k +
      mergeBetaR (d := 1) (fun _ => (1 : ℚ))
        ⟨fun v => v 0, fun v => v 0, fun v => v 0, fun v => v, fun v => v⟩
        (fun _ _ _ _ => 0) (fun _ _ _ _ => 0) i j k = 1) ∧
    (∀ (i j k : Fin 1), 0 ≤ attentionWeights (d := 1) (fun _ => (1 : ℚ))
        ⟨fun v => v 0, fun v => v 0, fun v => v 0, fun v => v, fun v => v⟩
        (fun _ _ _ _ => 0) i j k) ∧
    (∀ (i k : Fin 1), ∑ j : Fin 1, attentionWeights (d := 1) (fun _ => (1 : ℚ))
        ⟨fun v => v 0, fun v => v 0, fun v => v 0, fun v => v, fun v => v⟩
        (fun _ _ _ _ => 0) i j k = 1)) :=
  ⟨fun _ => one_pos, one_pos,
    chemyk_softmax_normalization (w := 1) (b := 1) (p := 1) (d := 1) (fun _ => (1 : ℚ))
      ⟨fun v => v 0, fun v => v 0, fun v => v 0, fun v => v, fun v => v⟩
      (fun _ _ _ _ => 0) (fun _ _ _ _ => 0) (fun _ _ _ _ => 0)
      (fun _ => one_pos) one_pos⟩

/-- C2 (counterexample): the attention weights of `ChemYK.attention` do
not sum to one across the dimension that `torch.sum(_, dim=0)` reduces.
With 2 split points and batch size 1 every weight equals 1 (the softmax
normalizes the singleton batch dimension, for any positive weighting
function, `exp` included), so the weights sum to 2, not 1, across
dim 0. -/
theorem chemyk_attention_weights_not_split_normalized :
    ¬ (∑ i : Fin 2, attentionWeights (w := 2) (b := 1) (p := 1) (d := 1)
        (fun _ => (1 : ℚ))
        ⟨fun v => v 0, fun v => v 0, fun v => v 0, fun v => v, fun v => v⟩
        (fun _ _ _ _ => 0) i 0 0 = 1) := by
  intro hsum
  have hw : ∀ i : Fin 2, attentionWeights (w := 2) (b := 1) (p := 1) (d := 1)
      (fun _ => (1 : ℚ))
      ⟨fun v => v 0, fun v => v 0, fun v => v 0, fun v => v, fun v => v⟩
      (fun _ _ _ _ => 0) i 0 0 = 1 := by
    intro i
    unfold attentionWeights
    simp
  rw [Fin.sum_univ_two, hw 0, hw 1] at hsum
  norm_num at hsum

/-- C9: per row, `ElectraPre._get_data_and_labels` labels a position 1
iff the emitted token differs from the original token there; every
emitted token is an element of the row, and a replacement is never
equal to the token it replaces; a row whose tokens are all identical is
emitted unchanged with all labels 0.  The coin flips and the
`random.choice` draws are oracle parameters; the hypotheses say only
that draws come from the row (which `random.choice(row)` guarantees)
and that the draw stream at a position that must replace its token
eventually yields a differing value (the almost-sure termination of the
`while` loop). -/
theorem electra_pre_corruption (fires : ℕ → Bool) (choices : ℕ → List ℕ)
    (row : List ℕ)
    (hmem : ∀ i < row.length, ∀ c ∈ choices i, c ∈ row)
    (hterm : ∀ i < row.length, (∃ x2 ∈ row, x2 ≠ row.getD i 0) → fires i = true →
      ∃ c ∈ choices i, c ≠ row.getD i 0) :
    ∃ dl, getDataAndLabelsRow fires choices row = some dl ∧
      dl.1.length = row.length ∧ dl.2.length = row.length ∧
      (∀ i < row.length, (dl.2.getD i 0 = 1 ↔ dl.1.getD i 0 ≠ row.getD i 0)) ∧
      (∀ i < row.length, dl.1.getD i 0 ∈ row) ∧
      ((∀ x2 ∈ row, ∀ y2 ∈ row, x2 = y2) →
        dl.1 = row ∧ dl.2 = List.replicate row.length 0) := by
  have hgetDmem : ∀ i < row.length, row.getD i 0 ∈ row := by
    intro i hi
    rw [List.getD_eq_getElem _ _ hi]
    exact List.getElem_mem hi
  -- per-position success and characterization
  have hchar : ∀ i < row.length,
      ∃ v, corruptToken row (row.getD i 0) (fires i) (choices i) = some v ∧
        (v.2 = 1 ↔ v.1 ≠ row.getD i 0) ∧ v.1 ∈ row ∧
        (row.any (fun x2 => x2 != row.getD i 0) = false → v = (row.getD i 0, 0)) := by
    intro i hi
    by_cases hc : (row.any (fun x2 => x2 != row.getD i 0) && fires i) = true
    · obtain ⟨hany, hfire⟩ := (Bool.and_eq_true _ _).mp hc
      have hex : ∃ x2 ∈ row, x2 ≠ row.getD i 0 := by
        obtain ⟨x2, hx2, hx2ne⟩ := List.any_eq_true.mp hany
        exact ⟨x2, hx2, by simpa using hx2ne⟩
      obtain ⟨c, hcmem, hcne⟩ := hterm i hi hex hfire
      have hiss : (drawNotEq (row.getD i 0) (choices i)).isSome = true := by
        unfold drawNotEq
        exact List.find?_isSome.mpr ⟨c, hcmem, by simpa using hcne⟩
      obtain ⟨c0, hfind⟩ := Option.isSome_iff_exists.mp hiss
      have hc0ne : c0 ≠ row.getD i 0 := by
        have := List.find?_some hfind
        simpa using this
      have hc0mem : c0 ∈ row := hmem i hi c0 (List.mem_of_find?_eq_some hfind)
      refine ⟨(c0, 1), ?_, Iff.intro (fun _ => hc0ne) (fun _ => rfl), hc0mem, ?_⟩
      · unfold corruptToken
        rw [if_pos hc, hfind]
        rfl
      · intro hfalse
        rw [hfalse] at hany
        cases hany
    · refine ⟨(row.getD i 0, 0), ?_, by simp, hgetDmem i hi, fun _ => rfl⟩
      unfold corruptToken
      rw [if_neg hc]
  -- the total emitted list
  have hmapM : (List.range row.length).mapM
      (fun i => corruptToken row (row.getD i 0) (fires i) (choices i)) =
      some ((List.range row.length).map
        (fun i => (corruptToken row (row.getD i 0) (fires i) (choices i)).getD (0, 0))) := by
    apply mapM_eq_some_map
    intro a ha
    have hai := List.mem_range.mp ha
    obtain ⟨v, hsome, _⟩ := hchar a hai
    rw [hsome]
    rfl
  have hres : getDataAndLabelsRow fires choices row =
      some (((List.range row.length).map
        (fun i => (corruptToken row (row.getD i 0) (fires i) (choices i)).getD (0, 0))).unzip) := by
    unfold getDataAndLabelsRow
    rw [hmapM]
    rfl
  set g : ℕ → ℕ × ℕ :=
    fun i => (corruptToken row (row.getD i 0) (fires i) (choices i)).getD (0, 0) with hg
  have hgi : ∀ i < row.length,
      ((g i).2 = 1 ↔ (g i).1 ≠ row.getD i 0) ∧ (g i).1 ∈ row ∧
      (row.any (fun x2 => x2 != row.getD i 0) = false → g i = (row.getD i 0, 0)) := by
    intro i hi
    obtain ⟨v, hsome, hiff, hmem2, hid⟩ := hchar i hi
    have hgv : g i = v := by simp only [hg]; rw [hsome]; rfl
    rw [hgv]
    exact ⟨hiff, hmem2, hid⟩
  refine ⟨((List.range row.length).map g).unzip, hres, ?_, ?_, ?_, ?_, ?_⟩
  · rw [List.unzip_fst]; simp
  · rw [List.unzip_snd]; simp
  · intro i hi
    have h1 : (((List.range row.length).map g).unzip).1.getD i 0 = (g i).1 := by
      rw [List.unzip_fst, List.map_map]
      exact getD_map_range _ _ i hi 0
    have h2 : (((List.range row.length).map g).unzip).2.getD i 0 = (g i).2 := by
      rw [List.unzip_snd, List.map_map]
      exact getD_map_range _ _ i hi 0
    rw [h1, h2]
    exact (hgi i hi).1
  · intro i hi
    have h1 : (((List.range row.length).map g).unzip).1.getD i 0 = (g i).1 := by
      rw [List.unzip_fst, List.map_map]
      exact getD_map_range _ _ i hi 0
    rw [h1]
    exact (hgi i hi).2.1
  · intro hid
    have hconst : ∀ i < row.length, g i = (row.getD i 0, 0) := by
      intro i hi
      refine (hgi i hi).2.2 ?_
      rw [Bool.eq_false_iff]
      intro hany
      obtain ⟨x2, hx2, hx2ne⟩ := List.any_eq_true.mp hany
      exact (by simpa using hx2ne : x2 ≠ row.getD i 0) (hid x2 hx2 _ (hgetDmem i hi))
    constructor
    · rw [List.unzip_fst, List.map_map]
      have : (List.range row.length).map (Prod.fst ∘ g) =
          (List.range row.length).map (fun i => row.getD i 0) := by
        apply List.map_congr_left
        intro a ha
        have := hconst a (List.mem_range.mp ha)
        simp [Function.comp, this]
      rw [this, list_eq_range_map_getD]
    · rw [List.unzip_snd, List.map_map]
      have : (List.range row.length).map (Prod.snd ∘ g) =
          (List.range row.length).map (fun _ => 0) := by
        apply List.map_congr_left
        intro a ha
        have := hconst a (List.mem_range.mp ha)
        simp [Function.comp, this]
      rw [this, List.map_const']
      simp

theorem electra_pre_corruption_witness :
    (∀ i < ([1, 2] : List ℕ).length, ∀ c ∈ [2, 1], c ∈ ([1, 2] : List ℕ)) ∧
    (∀ i < ([1, 2] : List ℕ).length,
      (∃ x2 ∈ ([1, 2] : List ℕ), x2 ≠ ([1, 2] : List ℕ).getD i 0) →
      (fun _ : ℕ => true) i = true →
      ∃ c ∈ [2, 1], c ≠ ([1, 2] : List ℕ).getD i 0) ∧
    (∃ dl, getDataAndLabelsRow (fun _ => true) (fun _ => [2, 1]) [1, 2] = some dl ∧
      dl.1.length = ([1, 2] : List ℕ).length ∧
      dl.2.length = ([1, 2] : List ℕ).length ∧
      (∀ i < ([1, 2] : List ℕ).length,
        (dl.2.getD i 0 = 1 ↔ dl.1.getD i 0 ≠ ([1, 2] : List ℕ).getD i 0)) ∧
      (∀ i < ([1, 2] : List ℕ).length, dl.1.getD i 0 ∈ ([1, 2] : List ℕ)) ∧
      ((∀ x2 ∈ ([1, 2] : List ℕ), ∀ y2 ∈ ([1, 2] : List ℕ), x2 = y2) →
        dl.1 = [1, 2] ∧ dl.2 = List.replicate ([1, 2] : List ℕ).length 0)) :=
  ⟨by decide, by decide,
    electra_pre_corruption (fun _ => true) (fun _ => [2, 1]) [1, 2]
      (by decide) (by decide)⟩

theorem getD_map_range2 {α : Type} (g : ℕ → α) (s m i : ℕ) (h : i < m) (dfl : α) :
    ((List.range' s m).map g).getD i dfl = g (s + i) := by
  rw [getD_map_lt g _ i (by simpa using h) dfl 0,
    List.getD_eq_getElem _ _ (by simpa using h), List.getElem_range']
  simp

theorem drop_range (m n : ℕ) : (List.range n).drop m = List.range' m (n - m) := by
  apply List.ext_getElem
  · simp
  · intro j h1 h2
    rw [List.getElem_drop, List.getElem_range, List.getElem_range']
    omega

theorem reverse_map_range {α : Type} (f : ℕ → α) (n : ℕ) :
    ((List.range n).map f).reverse = (List.range n).map (fun j => f (n - 1 - j)) := by
  apply List.ext_getElem
  · simp
  · intro j h1 h2
    rw [List.getElem_reverse, List.getElem_map, List.getElem_map, List.getElem_range,
      List.getElem_range]
    congr 1
    simp only [List.length_map, List.length_range] at h1 ⊢

theorem getLastD_map_range {α : Type} (f : ℕ → α) (n : ℕ) (hn : 1 ≤ n) (dfl : α) :
    ((List.range n).map f).getLastD dfl = f (n - 1) := by
  rw [List.getLastD_eq_getLast?, List.getLast?_eq_getElem?, ← List.getD_eq_getElem?_getD]
  have hlen : ((List.range n).map f).length - 1 = n - 1 := by simp
  rw [hlen]
  exact getD_map_range f n (n - 1) (by omega) dfl

theorem chemYKChart_zero {γ α : Type} [Inhabited α] (embed : γ → α)
    (mrg : List α → List α → α) (x : List γ) (p2 : ℕ) :
    chemYKChart embed mrg x 0 p2 = (x.map embed).getD p2 default := by
  rw [chemYKChart]

theorem chemYKChart_succ {γ α : Type} [Inhabited α] (embed : γ → α)
    (mrg : List α → List α → α) (x : List γ) (w2 p2 : ℕ) :
    chemYKChart embed mrg x (w2 + 1) p2 =
      mrg ((List.range (w2 + 1)).map (fun i => chemYKChart embed mrg x i p2))
        ((List.range (w2 + 1)).map
          (fun i => chemYKChart embed mrg x (w2 - i) (p2 + i + 1))) := by
  rw [chemYKChart]
  rw [List.attach_map_coe (List.range (w2 + 1)) (fun i => chemYKChart embed mrg x i p2),
    List.attach_map_coe (List.range (w2 + 1))
      (fun i => chemYKChart embed mrg x (w2 - i) (p2 + i + 1))]

theorem chemYKStep_level {γ α : Type} [Inhabited α] (embed : γ → α)
    (mrg : List α → List α → α) (x : List γ) (w2 : ℕ) (hwL : w2 + 1 < x.length) :
    chemYKStep mrg x.length
      ((List.range (w2 + 1)).map (fun v =>
        (List.range (x.length - v)).map (fun p2 => chemYKChart embed mrg x v p2)))
      (w2 + 1) =
    (List.range (x.length - (w2 + 1))).map
      (fun p2 => chemYKChart embed mrg x (w2 + 1) p2) := by
  have hls : (List.range (w2 + 1)).map (fun i =>
      ((((List.range (w2 + 1)).map (fun v =>
        (List.range (x.length - v)).map (fun p2 => chemYKChart embed mrg x v p2))).getD i
          []).take (x.length - (w2 + 1)))) =
      (List.range (w2 + 1)).map (fun i =>
        (List.range (x.length - (w2 + 1))).map
          (fun p2 => chemYKChart embed mrg x i p2)) := by
    apply List.map_congr_left
    intro i hi
    have hi2 : i < w2 + 1 := List.mem_range.mp hi
    rw [getD_map_range _ _ i hi2 []]
    rw [← List.map_take, List.take_range]
    have hmin : (x.length - (w2 + 1)) ⊓ (x.length - i) = x.length - (w2 + 1) := by omega
    rw [hmin]
  have hrs : (List.range (w2 + 1)).map (fun i =>
      ((((List.range (w2 + 1)).map (fun v =>
        (List.range (x.length - v)).map (fun p2 => chemYKChart embed mrg x v p2))).getD i
          []).drop ((w2 + 1) - i))) =
      (List.range (w2 + 1)).map (fun i =>
        (List.range' ((w2 + 1) - i) (x.length - (w2 + 1))).map
          (fun p2 => chemYKChart embed mrg x i p2)) := by
    apply List.map_congr_left
    intro i hi
    have hi2 : i < w2 + 1 := List.mem_range.mp hi
    rw [getD_map_range _ _ i hi2 []]
    rw [← List.map_drop, drop_range]
    have harith : x.length - i - ((w2 + 1) - i) = x.length - (w2 + 1) := by omega
    rw [harith]
  show mergeStack mrg
      ((List.range (w2 + 1)).map (fun i =>
        ((((List.range (w2 + 1)).map (fun v =>
          (List.range (x.length - v)).map (fun p2 => chemYKChart embed mrg x v p2))).getD i
            []).take (x.length - (w2 + 1)))))
      (((List.range (w2 + 1)).map (fun i =>
        ((((List.range (w2 + 1)).map (fun v =>
          (List.range (x.length - v)).map (fun p2 => chemYKChart embed mrg x v p2))).getD i
            []).drop ((w2 + 1) - i)))).reverse)
      (x.length - (w2 + 1)) = _
  rw [hls, hrs, reverse_map_range]
  unfold mergeStack
  apply List.map_congr_left
  intro p2 hp2
  have hp2b : p2 < x.length - (w2 + 1) := List.mem_range.mp hp2
  rw [chemYKChart_succ]
  congr 1
  · rw [List.map_map]
    apply List.map_congr_left
    intro i hi
    have hi2 : i < w2 + 1 := List.mem_range.mp hi
    simp only [Function.comp]
    exact getD_map_range _ _ p2 hp2b default
  · rw [List.map_map]
    apply List.map_congr_left
    intro j hj
    have hj2 : j < w2 + 1 := List.mem_range.mp hj
    simp only [Function.comp]
    rw [getD_map_range2 _ _ _ p2 hp2b default]
    have h1 : w2 + 1 - 1 - j = w2 - j := by omega
    rw [h1]
    have h2 : w2 + 1 - (w2 - j) + p2 = p2 + j + 1 := by omega
    rw [h2]

theorem chemYKLevels_eq {γ α : Type} [Inhabited α] (embed : γ → α)
    (mrg : List α → List α → α) (x : List γ) (hx : x ≠ []) :
    chemYKLevels embed mrg x =
      (List.range x.length).map (fun v =>
        (List.range (x.length - v)).map (fun p2 => chemYKChart embed mrg x v p2)) := by
  have hL : 1 ≤ x.length := List.length_pos.mpr hx
  have key : ∀ k, k ≤ x.length - 1 →
      (List.range' 1 k).foldl
        (fun h width => h ++ [chemYKStep mrg x.length h width]) [x.map embed] =
      (List.range (k + 1)).map (fun v =>
        (List.range (x.length - v)).map (fun p2 => chemYKChart embed mrg x v p2)) := by
    intro k
    induction k with
    | zero =>
      intro _
      show [x.map embed] = _
      have hr1 : List.range 1 = [0] := rfl
      rw [hr1, List.map_cons, List.map_nil]
      congr 1
      have h0 : ∀ p2 ∈ List.range (x.length - 0),
          chemYKChart embed mrg x 0 p2 = (x.map embed).getD p2 default :=
        fun p2 _ => chemYKChart_zero embed mrg x p2
      rw [List.map_congr_left h0, Nat.sub_zero]
      have hlen : x.length = (x.map embed).length := (List.length_map x embed).symm
      rw [hlen]
      exact (list_eq_range_map_getD default (x.map embed)).symm
    | succ k ih =>
      intro hk1
      rw [List.range'_concat, List.foldl_concat, ih (by omega)]
      have h1k : 1 + 1 * k = k + 1 := by omega
      rw [h1k, chemYKStep_level embed mrg x k (by omega)]
      rw [List.range_succ (n := k + 1), List.map_append, List.map_cons, List.map_nil]
  show (List.range' 1 (x.length - 1)).foldl
      (fun h width => h ++ [chemYKStep mrg x.length h width]) [x.map embed] = _
  rw [key (x.length - 1) le_rfl]
  have hs : x.length - 1 + 1 = x.length := by omega
  rw [hs]

/-- C1: `ChemYK.forward` builds a bottom-up CYK chart.  For every token
sequence `x` of length `L ≥ 1` (per batch — the batch and feature
dimensions live inside the abstract per-position slices): the chart has
`L` levels; level `v` has one entry per start position for each of the
`L - v` contiguous subsequences of length `v + 1`; level 0 is the token
embedding; the entry of level `v ≥ 1` at position `p` is `merge` applied
to the stacked pairs (left: level `i` at `p`, spanning `i + 1` tokens;
right: level `v - 1 - i` at `p + i + 1`, spanning `v - i` tokens) over
all split points `i < v`; and the returned prediction is the output
head applied to the single full-length representation at level `L - 1`,
position 0. -/
theorem chemYK_forward_builds_cyk_chart {γ α β2 : Type} [Inhabited α] (embed : γ → α)
    (mrg : List α → List α → α) (out : α → β2) (x : List γ) (hx : x ≠ []) :
    (chemYKLevels embed mrg x).length = x.length ∧
    (∀ v < x.length, ((chemYKLevels embed mrg x).getD v []).length = x.length - v) ∧
    (∀ v < x.length, ∀ p2 < x.length - v,
      ((chemYKLevels embed mrg x).getD v []).getD p2 default =
        chemYKChart embed mrg x v p2) ∧
    chemYKForward embed mrg out x =
      out (chemYKChart embed mrg x (x.length - 1) 0) := by
  have hL : 1 ≤ x.length := List.length_pos.mpr hx
  have hlev := chemYKLevels_eq embed mrg x hx
  refine ⟨?_, ?_, ?_, ?_⟩
  · rw [hlev]; simp
  · intro v hv
    rw [hlev, getD_map_range _ _ v hv []]
    simp
  · intro v hv p2 hp2
    rw [hlev, getD_map_range _ _ v hv []]
    exact getD_map_range _ _ p2 hp2 default
  · unfold chemYKForward
    rw [hlev, getLastD_map_range _ _ hL []]
    have h1 : x.length - (x.length - 1) = 1 := by omega
    rw [h1]
    rw [getD_map_range _ _ 0 one_pos default]

theorem chemYK_forward_builds_cyk_chart_witness :
    (([0, 1, 2] : List ℕ) ≠ []) ∧
    ((chemYKLevels (fun n => (n : ℤ)) (fun a b2 => a.sum + b2.sum)
        ([0, 1, 2] : List ℕ)).length = ([0, 1, 2] : List ℕ).length ∧
    (∀ v < ([0, 1, 2] : List ℕ).length,
      ((chemYKLevels (fun n => (n : ℤ)) (fun a b2 => a.sum + b2.sum)
        ([0, 1, 2] : List ℕ)).getD v []).length = ([0, 1, 2] : List ℕ).length - v) ∧
    (∀ v < ([0, 1, 2] : List ℕ).length, ∀ p2 < ([0, 1, 2] : List ℕ).length - v,
      ((chemYKLevels (fun n => (n : ℤ)) (fun a b2 => a.sum + b2.sum)
        ([0, 1, 2] : List ℕ)).getD v []).getD p2 default =
        chemYKChart (fun n => (n : ℤ)) (fun a b2 => a.sum + b2.sum)
          ([0, 1, 2] : List ℕ) v p2) ∧
    chemYKForward (fun n => (n : ℤ)) (fun a b2 => a.sum + b2.sum) id
        ([0, 1, 2] : List ℕ) =
      id (chemYKChart (fun n => (n : ℤ)) (fun a b2 => a.sum + b2.sum)
        ([0, 1, 2] : List ℕ) (([0, 1, 2] : List ℕ).length - 1) 0)) :=
  ⟨by decide,
    chemYK_forward_builds_cyk_chart (fun n => (n : ℤ)) (fun a b2 => a.sum + b2.sum)
      id ([0, 1, 2] : List ℕ) (by decide)⟩

end ChebAI
